import Mathlib

/-!
Verification of the Confluence export/merge pipeline (`exporter.py`,
`merger.py`, `merger_md.py`) against its specification.

The Python sources are shallowly embedded: pure fragments become Lean
functions, the HTML parser (BeautifulSoup) is treated as an external
capability `String → Html.Node` exactly as the spec prescribes, and the
filesystem / HTTP effects are passed in explicitly (an `exists` predicate
for the disk, an outcome oracle for per-page export, a batch function for
the paginated search endpoint).  Python strings are modelled as Lean
`String` (a list of unicode code points), with UTF-8 byte length, Python's
`str.strip`, lexicographic `<`, `startswith`, `os.path.splitext` and the
`re` substitutions of the sources reimplemented over `List Char`.
-/

/-! ## Python string primitives shared by all three modules -/

namespace PyStr

/-- UTF-8 encoded byte length of a string, `len(s.encode("utf-8"))`. -/
def utf8Len (s : String) : Nat := (s.data.map Char.utf8Size).sum

/-- Characters stripped by Python's no-argument `str.strip()` (ASCII part;
the sources only ever produce these). -/
def isPyWS (c : Char) : Bool :=
  c = ' ' || c = '\t' || c = '\n' || c = '\r' || c = '\x0b' || c = '\x0c'

/-- Drop characters satisfying `p` from both ends, Python's `str.strip(chars)`. -/
def stripChars (p : Char → Bool) (l : List Char) : List Char :=
  ((l.dropWhile p).reverse.dropWhile p).reverse

/-- Python `s.strip()` with no argument. -/
def pyStrip (s : String) : String := ⟨stripChars isPyWS s.data⟩

/-- Lexicographic strict order on code-point sequences; this is how Python
compares strings (`sorted`, `<`). -/
def lexLt : List Char → List Char → Bool
  | [], [] => false
  | [], _ :: _ => true
  | _ :: _, [] => false
  | a :: as, b :: bs => if a < b then true else if b < a then false else lexLt as bs

/-- Python `a <= b` on strings. -/
def pyLe (a b : String) : Bool := !(lexLt b.data a.data)

/-- Python `s.startswith(p)`. -/
def pyStartsWith (s p : String) : Bool := p.data.isPrefixOf s.data

/-- Python `s.endswith(p)`. -/
def pyEndsWith (s p : String) : Bool := p.data.isSuffixOf s.data

/-- Python `s.lower()` (ASCII case folding; extensions and tags in the
sources are ASCII). -/
def pyLower (s : String) : String := ⟨s.data.map Char.toLower⟩

/-- Python `sorted` on strings: a stable sort by `lexLt` (insertion sort,
which is stable and has the same sorted-permutation contract). -/
def sortStrings (l : List String) : List String :=
  List.insertionSort (fun a b => pyLe a b = true) l

/-- Python `sep.join(parts)`. -/
def joinSep (sep : String) : List String → String
  | [] => ""
  | [s] => s
  | s :: rest => s ++ sep ++ joinSep sep rest

/-- Root part of `os.path.splitext(name)` together with the extension, for a
name containing no path separator: the split happens at the last dot, unless
every character before that dot is itself a dot (leading dots are not an
extension in CPython). -/
def splitext (name : String) : String × String :=
  let cs := name.data
  match ((List.range cs.length).filter (fun i => cs.getD i ' ' = '.')).getLast? with
  | none => (name, "")
  | some i =>
      if (cs.take i).any (fun c => c ≠ '.') then (⟨cs.take i⟩, ⟨cs.drop i⟩)
      else (name, "")

end PyStr

/-! ## The parsed-markup capability

The spec treats BeautifulSoup as an external capability
`parse(html) → traversable node tree`; `Html.Node` is that tree and the
string-extraction of `Tag.get_text(separator, strip)` is modelled from its
documented behaviour: the descendant text nodes in document order, each
optionally stripped (empty results skipped), joined by the separator. -/

namespace Html

inductive Node where
  | text (s : String)
  | elem (tag : String) (attrs : List (String × String)) (children : List Node)

mutual

def strsNode : Node → List String
  | .text s => [s]
  | .elem _ _ cs => strsList cs

def strsList : List Node → List String
  | [] => []
  | c :: cs => strsNode c ++ strsList cs

end

/-- Text of the descendants of one node list, `get_text(sep, strip=...)`
of the enclosing tag. -/
def getTextList (sep : String) (strip : Bool) (cs : List Node) : String :=
  let ss := strsList cs
  let ss := if strip then (ss.map PyStr.pyStrip).filter (fun s => s ≠ "") else ss
  PyStr.joinSep sep ss

/-- Text of all descendants of a node, `node.get_text(sep, strip=...)`. -/
def getText (sep : String) (strip : Bool) (n : Node) : String :=
  let ss := strsNode n
  let ss := if strip then (ss.map PyStr.pyStrip).filter (fun s => s ≠ "") else ss
  PyStr.joinSep sep ss

/-- Value of attribute `k` with default, `node.get(k, dflt)`. -/
def getAttr (attrs : List (String × String)) (k dflt : String) : String :=
  match attrs.find? (fun p => p.1 = k) with
  | some p => p.2
  | none => dflt

-- Proper descendants of a node in document (preorder) order, the search
-- space of `node.find_all(...)` with `recursive=True`.
mutual

def descNode : Node → List Node
  | .text _ => []
  | .elem _ _ cs => descList cs

def descList : List Node → List Node
  | [] => []
  | c :: cs => c :: descNode c ++ descList cs

end

end Html

/-! ## merger.py -/

namespace Merger

open PyStr

/-- Number of newlines emitted for a maximal run of `n` newlines by
`re.sub(r"\n{3,}", "\n\n", text)`: runs of three or more collapse to two. -/
def collapseEmit (n : Nat) : List Char := List.replicate (if 3 ≤ n then 2 else n) '\n'

/-- Scan of the collapse substitution: `n` counts the current pending run of
newlines. -/
def collapseGo : Nat → List Char → List Char
  | n, [] => collapseEmit n
  | n, c :: cs =>
      if c = '\n' then collapseGo (n + 1) cs
      else collapseEmit n ++ c :: collapseGo 0 cs

/-- The `_WHITESPACE.sub("\n\n", text)` step of `merger.py`. -/
def collapseNewlines (s : String) : String := ⟨collapseGo 0 s.data⟩

/-- Run-detector: `hasRun3 n l = true` iff `l`, preceded by a pending run of
`n` newlines, contains a run of three or more consecutive newlines.  The
claim "no run of 3 or more consecutive newlines" is `hasRun3 0 l = false`. -/
def hasRun3 : Nat → List Char → Bool
  | n, [] => 3 ≤ n
  | n, c :: cs =>
      if 3 ≤ n then true
      else if c = '\n' then hasRun3 (n + 1) cs
      else hasRun3 0 cs

/-- The function `html_to_text` of `merger.py`, over the parser capability:
`BeautifulSoup(html, "html.parser").get_text(separator="\n")`, then the
newline collapse, then `str.strip()`. -/
def html_to_text (parse : String → Html.Node) (html : String) : String :=
  pyStrip (collapseNewlines (Html.getText "\n" false (parse html)))

/-- One page's block in a merged file:
`f"=== Page: {page_title} ===\n\n{text}"`. -/
def mkEntry (p : String × String) : String :=
  "=== Page: " ++ p.1 ++ " ===\n\n" ++ p.2

/-- Loop state of `merge_section`: flushed parts (each a list of entry
strings, written joined by `"\n\n"`), the accumulating part, and the
tracked byte counter `current_size`. -/
structure MergeSt where
  flushed : List (List String)
  current : List String
  currentSize : Nat

/-- Body of the per-page loop of `merge_section`: compute the entry size and
the separator size, flush the current part when appending would push the
tracked size over the budget, then append.  Note the source adds
`separator_size` to `current_size` even when the append directly follows a
flush (the counter then over-approximates the real content size by two). -/
def mergeStep (maxBytes : Nat) (st : MergeSt) (entry : String) : MergeSt :=
  let entrySize := utf8Len entry
  let separatorSize := if st.current.isEmpty then 0 else 2
  if !st.current.isEmpty && decide (maxBytes < st.currentSize + separatorSize + entrySize) then
    { flushed := st.flushed ++ [st.current]
      current := [entry]
      currentSize := entrySize + separatorSize }
  else
    { flushed := st.flushed
      current := st.current ++ [entry]
      currentSize := st.currentSize + entrySize + separatorSize }

/-- The function `merge_section` of `merger.py` on the already-converted
pages `(title, text)`: the parts written, in order, each as its list of
entry blocks.  The trailing flush writes the last part when non-empty. -/
def merge_section (maxBytes : Nat) (pages : List (String × String)) : List (List String) :=
  let entries := pages.map mkEntry
  let st := entries.foldl (mergeStep maxBytes) ⟨[], [], 0⟩
  if st.current.isEmpty then st.flushed else st.flushed ++ [st.current]

/-- Content of one written part, `"\n\n".join(parts)`. -/
def fileContent : List String → String
  | [] => ""
  | [e] => e
  | e :: rest => e ++ "\n\n" ++ fileContent rest

/-- Encoded byte size of one written part. -/
def fileSize (part : List String) : Nat := utf8Len (fileContent part)

/-- Name of the `part`-th output file of a section,
`<section>.txt` / `<section>_part{N}.txt`. -/
def outPath (sectionName : String) (part : Nat) : String :=
  sectionName ++ (if part = 1 then "" else "_part" ++ toString part) ++ ".txt"

/-- Disjunction every written part satisfies: within budget, or a single
oversized block standing alone. -/
def PartOk (maxBytes : Nat) (part : List String) : Prop :=
  fileSize part ≤ maxBytes ∨ ∃ e, part = [e] ∧ maxBytes < utf8Len e

end Merger

/-! ## Section collection (identical in merger.py and merger_md.py)

The export tree on disk is modelled as a finite directory tree; the order of
a directory's entry list models the (unspecified) order in which
`os.scandir` / `os.walk` list it. -/

namespace Merger

open PyStr

inductive FS where
  | file
  | dir (entries : List (String × FS))

/-- Names of the plain files among a directory's entries, in listing order
(the `files` component of one `os.walk` step). -/
def childFiles : List (String × FS) → List String
  | [] => []
  | (n, .file) :: es => n :: childFiles es
  | (_, .dir _) :: es => childFiles es

/-- Unsorted counterpart of the per-directory markup-file entries; used to
relate the walk to the specification list. -/
def fileEntries (es : List (String × FS)) : List (String × List String) :=
  ((childFiles es).filter (fun f => pyEndsWith f ".html")).map
    (fun f => ((splitext f).1, [f]))

mutual

def walkFS : FS → List (String × List String)
  | .file => []
  | .dir entries =>
      ((sortStrings (childFiles entries)).filter (fun f => pyEndsWith f ".html")).map
          (fun f => ((splitext f).1, [f]))
        ++ walkList entries

def walkList : List (String × FS) → List (String × List String)
  | [] => []
  | (n, t) :: rest => (walkFS t).map (fun e => (e.1, n :: e.2)) ++ walkList rest

end

mutual

def htmlSpecFS : FS → List (String × List String)
  | .file => []
  | .dir entries => htmlSpecList entries

def htmlSpecList : List (String × FS) → List (String × List String)
  | [] => []
  | (n, .file) :: rest =>
      (if pyEndsWith n ".html" then [((splitext n).1, [n])] else []) ++ htmlSpecList rest
  | (n, .dir sub) :: rest =>
      (htmlSpecFS (.dir sub)).map (fun e => (e.1, n :: e.2)) ++ htmlSpecList rest

end

mutual

def wfFS : FS → Bool
  | .file => true
  | .dir entries => decide (entries.map Prod.fst).Nodup && wfList entries

def wfList : List (String × FS) → Bool
  | [] => true
  | (_, t) :: rest => wfFS t && wfList rest

end

/-- Relative path of an entry joined with `/`, as `os.path.join` builds it. -/
def joinPath (segs : List String) : String := joinSep "/" segs

/-- Directory part of a path given as segments. -/
def dirOf (segs : List String) : List String := segs.dropLast

/-- The directory `d₁` lies strictly above `d₂`. -/
def StrictAnc (d₁ d₂ : List String) : Prop := d₁ <+: d₂ ∧ d₁ ≠ d₂

/-- The function `collect_sections` of `merger.py` / `merger_md.py` on a
modelled export root: immediate subdirectories sorted by name, each mapped
to the recursive walk of its markup files; sections with no markup file are
dropped. -/
def collect_sections (root : List (String × FS)) : List (String × List (String × List String)) :=
  (List.insertionSort (fun a b => pyLe a.1 b.1 = true) root).filterMap (fun e =>
    match e.2 with
    | .file => none
    | .dir sub =>
        let files := walkFS (.dir sub)
        if files.isEmpty then none else some (e.1, files))

end Merger

/-! ## merger_md.py -/

namespace MergerMd

open PyStr

/-- The `_HEADING_MAP` of `merger_md.py`. -/
def headingMarker : String → Option String
  | "h1" => some "###"
  | "h2" => some "###"
  | "h3" => some "####"
  | "h4" => some "#####"
  | "h5" => some "#####"
  | "h6" => some "#####"
  | _ => none

/-- Lines of the flattened-table branch: one pipe-joined line per `tr`
descendant, cells being the stripped text of its `td`/`th` descendants. -/
def tableRows (cs : List Html.Node) : List String :=
  (Html.descList cs).filterMap (fun n =>
    match n with
    | .elem t _ rcs =>
        if t = "tr" then
          some (joinSep " | " ((Html.descList rcs).filterMap (fun m =>
            match m with
            | .elem ct _ ccs =>
                if ct = "td" || ct = "th" then some (Html.getTextList " " true ccs) else none
            | _ => none)))
        else none
    | _ => none)

/-- List items of the `ul`/`ol` branch: the direct `li` children only
(`find_all("li", recursive=False)`). -/
def listItems (cs : List Html.Node) : List String :=
  cs.filterMap (fun c =>
    match c with
    | .elem t _ lics => if t = "li" then some ("- " ++ Html.getTextList " " true lics) else none
    | _ => none)

mutual

def convertNode : Html.Node → String
  | .text s => s
  | .elem tag0 attrs cs =>
      let tag := pyLower tag0
      match headingMarker tag with
      | some marker => "\n" ++ marker ++ " " ++ Html.getTextList " " true cs ++ "\n"
      | none =>
          if tag = "p" then
            let t := Html.getTextList " " true cs
            if t = "" then "" else "\n" ++ t ++ "\n"
          else if tag = "ul" || tag = "ol" then
            let items := listItems cs
            if items.isEmpty then "" else "\n" ++ joinSep "\n" items ++ "\n"
          else if tag = "br" then "\n"
          else if tag = "strong" || tag = "b" then
            let t := Html.getTextList " " true cs
            if t = "" then "" else "**" ++ t ++ "**"
          else if tag = "em" || tag = "i" then
            let t := Html.getTextList " " true cs
            if t = "" then "" else "*" ++ t ++ "*"
          else if tag = "code" then
            let t := Html.getTextList "" true cs
            if t = "" then "" else "`" ++ t ++ "`"
          else if tag = "pre" then
            "\n```\n" ++ Html.getTextList "" false cs ++ "\n```\n"
          else if tag = "a" then
            let t := Html.getTextList " " true cs
            if t = "" then "" else "[" ++ t ++ "](" ++ Html.getAttr attrs "href" "" ++ ")"
          else if tag = "table" then
            let rows := tableRows cs
            if rows.isEmpty then "" else "\n" ++ joinSep "\n" rows ++ "\n"
          else if tag = "script" || tag = "style" || tag = "head" then ""
          else convertList cs

def convertList : List Html.Node → String
  | [] => ""
  | c :: cs => convertNode c ++ convertList cs

end

/-- The function `html_to_markdown` of `merger_md.py` over the parser
capability. -/
def html_to_markdown (parse : String → Html.Node) (html : String) : String :=
  pyStrip (Merger.collapseNewlines (convertNode (parse html)))

/-- Rendering of one heading: marker, space, text, on its own line. -/
def headingLine (hashes : Nat) (t : String) : String :=
  "\n" ++ String.mk (List.replicate hashes '#') ++ " " ++ t ++ "\n"

end MergerMd

/-! ## exporter.py -/

namespace Exporter

open PyStr

/-- Character class of `_UNSAFE_CHARS = re.compile(r'[<>:"/\\|?*\x00-\x1f]')`. -/
def badChar (c : Char) : Bool :=
  c = '<' || c = '>' || c = ':' || c = '"' || c = '/' || c = '\\' ||
    c = '|' || c = '?' || c = '*' || c.toNat ≤ 0x1f

/-- One character after `_UNSAFE_CHARS.sub("_", ...)`. -/
def replChar (c : Char) : Char := if badChar c then '_' else c

/-- Python `_UNSAFE_CHARS.sub("_", s)`. -/
def sanitize (s : String) : String := ⟨s.data.map replChar⟩

/-- The progress record `{"completed": set(...), "failed": {...}}`. -/
structure Progress where
  completed : Finset String
  failed : List (String × String)

/-- Serialized form written by `save_progress`:
`{"completed": sorted(progress["completed"]), "failed": progress["failed"]}`. -/
def save_progress (pr : Progress) : List String × List (String × String) :=
  (pr.completed.sort (· ≤ ·), pr.failed)

/-- The function `load_progress` on a present progress file:
`{"completed": set(data["completed"]), "failed": data["failed"]}`. -/
def load_progress (data : List String × List (String × String)) : Progress :=
  ⟨data.1.toFinset, data.2⟩

/-- A Python exception as recorded by `export_page`:
`f"{type(exc).__name__}: {exc}"`. -/
structure PyExc where
  kind : String
  text : String

def excMsg (e : PyExc) : String := e.kind ++ ": " ++ e.text

/-- Python `progress["failed"].pop(page_id, None)` on a dict modelled as an
association list with unique keys. -/
def eraseKey (k : String) (l : List (String × String)) : List (String × String) :=
  l.filter (fun kv => kv.1 ≠ k)

/-- State of the progress record at the moment the export attempt starts:
the page id has just been popped from `failed`. -/
def preAttempt (pid : String) (pr : Progress) : Progress :=
  { pr with failed := eraseKey pid pr.failed }

/-- The function `export_page` of `exporter.py`.  The body fetch, directory
creation and attachment download are summarised by the `outcome` capability;
the returned list records each call to `save_progress`, with the record it
persisted. -/
def export_page (outcome : Except PyExc Unit) (pid : String) (pr : Progress) :
    Progress × List Progress :=
  let pr1 := preAttempt pid pr
  match outcome with
  | .ok _ =>
      let pr2 := { pr1 with completed := insert pid pr1.completed }
      (pr2, [pr2])
  | .error e =>
      let pr2 := { pr1 with failed := pr1.failed ++ [(pid, excMsg e)] }
      (pr2, [pr2])

/-- The page loop of `main`: skip ids already completed, otherwise run
`export_page`.  Returns the final record, the ids actually attempted (in
order), and every record passed to `save_progress` (in order). -/
def runPages (oracle : String → Except PyExc Unit) :
    List String → Progress → Progress × List String × List Progress
  | [], pr => (pr, [], [])
  | pid :: rest, pr =>
      if pid ∈ pr.completed then runPages oracle rest pr
      else
        let r := export_page (oracle pid) pid pr
        let rec' := runPages oracle rest r.1
        (rec'.1, pid :: rec'.2.1, r.2 ++ rec'.2.2)

/-- Outcome of one `main` run: the exit code, the final progress record if
the run reached the export loop, and the ids attempted. -/
structure RunResult where
  exitCode : Nat
  final : Option Progress
  attempted : List String

/-- The function `main` of `exporter.py` around discovery: a discovery
failure exits with code 1 before any export; otherwise the page loop runs
to completion and the process exits normally. -/
def runMain (discover : Except PyExc (List String))
    (oracle : String → Except PyExc Unit) (pr0 : Progress) : RunResult :=
  match discover with
  | .error _ => ⟨1, none, []⟩
  | .ok pids =>
      let r := runPages oracle pids pr0
      ⟨0, some r.1, r.2.1⟩

/-! ### Attachments -/

structure Attachment where
  title : String
  mediaType : String

structure AttachmentConfig where
  mimePrefixes : List String
  extensions : List String

/-- Destination path `os.path.join(att_dir, _UNSAFE_CHARS.sub("_", att["title"]))`. -/
def attachmentDest (attDir : String) (a : Attachment) : String :=
  attDir ++ "/" ++ sanitize a.title

/-- Decision of the attachment loop body of `download_attachments`: `true`
exactly when none of the three `continue` branches fires and the streamed
download is performed. -/
def shouldDownload (cfg : AttachmentConfig) (fileExists : String → Bool)
    (attDir : String) (a : Attachment) : Bool :=
  let filename := sanitize a.title
  let dest := attDir ++ "/" ++ filename
  if !cfg.mimePrefixes.isEmpty && cfg.mimePrefixes.any (fun p => pyStartsWith a.mediaType p) then
    false
  else if !cfg.extensions.isEmpty &&
      (cfg.extensions.map pyLower).contains (pyLower (splitext filename).2) then
    false
  else if fileExists dest then false
  else true

/-- The attachments for which `download_attachments` performs the network
fetch, given the full listing returned by the paginated child query. -/
def download_attachments (cfg : AttachmentConfig) (fileExists : String → Bool)
    (attDir : String) (atts : List Attachment) : List Attachment :=
  atts.filter (shouldDownload cfg fileExists attDir)

/-! ### Pagination -/

/-- The pagination loop shared by `get_all_pages` and
`find_archive_page_ids`, over the capability `fetch start = results`.
`fuel` bounds the number of iterations so the model is total; the returned
flag is `true` when the loop exited by its `break` (a short batch) within
`fuel` iterations.  Results are the concatenated batches, alongside the
`start` offsets queried, in order. -/
def getAllPages (fetch : Nat → List α) (limit : Nat) :
    Nat → Nat → List α × List Nat × Bool
  | 0, _ => ([], [], false)
  | n + 1, start =>
      let results := fetch start
      if results.length < limit then (results, [start], true)
      else
        let r := getAllPages fetch limit n (start + limit)
        (results ++ r.1, start :: r.2.1, r.2.2)

end Exporter

/-! ## A concrete parser-capability fragment

Used to instantiate the capability in witnesses and in the C5
counterexample.  On these inputs it reproduces what
`BeautifulSoup(s, "html.parser")` does: `&lt;`/`&gt;` are character
references and decode to `<`/`>`, and `<b>` is parsed as a `b` element with
no text content. -/

namespace Html

def parse0 : String → Node :=
  fun s =>
    if s = "&lt;b&gt;" then .text "<b>"
    else if s = "<b>" then .elem "b" [] []
    else .text s

end Html

/-! ## Theorems -/

section Claims

open PyStr

/-! ### C10 : progress record round trip -/

/-- C10: for every progress record (a finite set of completed ids and a
string-to-string failed map), `load_progress (save_progress pr)` returns a
record equal to the original: the completed set is serialised sorted and
reloaded as a set unchanged, the failed mapping is carried through
unchanged. -/
theorem C10_progress_round_trip (pr : Exporter.Progress) :
    Exporter.load_progress (Exporter.save_progress pr) = pr := by
  cases pr with
  | mk completed failed =>
      simp [Exporter.load_progress, Exporter.save_progress, Finset.sort_toFinset]

/-! ### C9 : heading map of html_to_markdown -/

/-- C9: in `_convert_node`, `h1` and `h2` both render at Markdown heading
depth 3, `h3` one level deeper (4), and `h4`, `h5`, `h6` two levels deeper
(5), each as the heading marker followed by the element's text on its own
line. -/
theorem C9_heading_map (attrs : List (String × String)) (cs : List Html.Node) :
    MergerMd.convertNode (.elem "h1" attrs cs) =
        MergerMd.headingLine 3 (Html.getTextList " " true cs) ∧
      MergerMd.convertNode (.elem "h2" attrs cs) =
        MergerMd.headingLine 3 (Html.getTextList " " true cs) ∧
      MergerMd.convertNode (.elem "h3" attrs cs) =
        MergerMd.headingLine (3 + 1) (Html.getTextList " " true cs) ∧
      MergerMd.convertNode (.elem "h4" attrs cs) =
        MergerMd.headingLine (3 + 2) (Html.getTextList " " true cs) ∧
      MergerMd.convertNode (.elem "h5" attrs cs) =
        MergerMd.headingLine (3 + 2) (Html.getTextList " " true cs) ∧
      MergerMd.convertNode (.elem "h6" attrs cs) =
        MergerMd.headingLine (3 + 2) (Html.getTextList " " true cs) := by
  refine ⟨?_, ?_, ?_, ?_, ?_, ?_⟩ <;>
    · rw [MergerMd.convertNode]
      simp only [MergerMd.headingLine]
      norm_num [show PyStr.pyLower "h1" = "h1" from by decide,
        show PyStr.pyLower "h2" = "h2" from by decide,
        show PyStr.pyLower "h3" = "h3" from by decide,
        show PyStr.pyLower "h4" = "h4" from by decide,
        show PyStr.pyLower "h5" = "h5" from by decide,
        show PyStr.pyLower "h6" = "h6" from by decide,
        MergerMd.headingMarker]
      rfl

/-! ### C6 : attachment download filter -/

/-- C6: `download_attachments` performs the download fetch for an
attachment if and only if its media type starts with none of the configured
MIME-prefix exclusions, its file extension is not in the configured
extension exclusion set compared case-insensitively, and its destination
file does not already exist; in particular an existing destination means no
network call.  The fetched list is exactly the filter of the listing by
that decision. -/
theorem C6_attachment_filter (cfg : Exporter.AttachmentConfig)
    (fileExists : String → Bool) (attDir : String) (a : Exporter.Attachment)
    (atts : List Exporter.Attachment) :
    (Exporter.shouldDownload cfg fileExists attDir a = true ↔
      (∀ p ∈ cfg.mimePrefixes, pyStartsWith a.mediaType p = false) ∧
        pyLower (splitext (Exporter.sanitize a.title)).2 ∉ cfg.extensions.map pyLower ∧
        fileExists (Exporter.attachmentDest attDir a) = false) ∧
    (fileExists (Exporter.attachmentDest attDir a) = true →
      Exporter.shouldDownload cfg fileExists attDir a = false) ∧
    Exporter.download_attachments cfg fileExists attDir atts =
      atts.filter (Exporter.shouldDownload cfg fileExists attDir) := by
  have guard1 : ∀ (l : List String) (f : String → Bool), (!l.isEmpty && l.any f) = l.any f := by
    intro l f
    cases l <;> simp
  have guard2 : ∀ (l : List String) (x : String), (!l.isEmpty && l.contains x) = l.contains x := by
    intro l x
    cases l <;> simp
  have hsd : Exporter.shouldDownload cfg fileExists attDir a =
      (!(cfg.mimePrefixes.any fun p => pyStartsWith a.mediaType p) &&
        (!(cfg.extensions.map pyLower).contains
            (pyLower (splitext (Exporter.sanitize a.title)).2) &&
          !fileExists (attDir ++ "/" ++ Exporter.sanitize a.title))) := by
    rw [Exporter.shouldDownload]
    simp only [guard1]
    rw [show (!cfg.extensions.isEmpty &&
        (cfg.extensions.map pyLower).contains
          (pyLower (splitext (Exporter.sanitize a.title)).2)) =
        (cfg.extensions.map pyLower).contains
          (pyLower (splitext (Exporter.sanitize a.title)).2) from by
      cases cfg.extensions <;> simp]
    rcases cfg.mimePrefixes.any fun p => pyStartsWith a.mediaType p with - | -
    · rcases h2 : (cfg.extensions.map pyLower).contains
          (pyLower (splitext (Exporter.sanitize a.title)).2) with - | -
      · rcases h3 : fileExists (attDir ++ "/" ++ Exporter.sanitize a.title) with - | - <;>
          simp [h2, h3]
      · simp [h2]
    · simp
  refine ⟨?_, ?_, rfl⟩
  · rw [hsd]
    constructor
    · intro h
      simp only [Bool.and_eq_true, Bool.not_eq_true'] at h
      obtain ⟨hA, hB, hC⟩ := h
      refine ⟨fun p hp => ?_, fun hmem => ?_,
        by simpa [Exporter.attachmentDest] using hC⟩
      · simpa using List.any_eq_false.mp hA p hp
      · have hc : (List.map pyLower cfg.extensions).contains
            (pyLower (splitext (Exporter.sanitize a.title)).2) = true :=
          List.elem_iff.mpr hmem
        rw [hB] at hc
        cases hc
    · rintro ⟨h1, h2, h3⟩
      simp only [Bool.and_eq_true, Bool.not_eq_true']
      refine ⟨List.any_eq_false.mpr ?_, ?_, by simpa [Exporter.attachmentDest] using h3⟩
      · intro p hp
        simp [h1 p hp]
      · rcases hc : (cfg.extensions.map pyLower).contains
            (pyLower (splitext (Exporter.sanitize a.title)).2) with - | -
        · rfl
        · exact absurd (List.elem_iff.mp hc) h2
  · intro hex
    rw [hsd]
    simp [Exporter.attachmentDest] at hex
    simp [hex]

/-! ### Lemmas about the export run -/

theorem Exporter.export_page_completed_cases (o : Except Exporter.PyExc Unit)
    (pid : String) (pr : Exporter.Progress) :
    (Exporter.export_page o pid pr).1.completed = insert pid pr.completed ∨
      (Exporter.export_page o pid pr).1.completed = pr.completed := by
  cases o with
  | ok u => exact Or.inl (by simp [Exporter.export_page, Exporter.preAttempt])
  | error e => exact Or.inr (by simp [Exporter.export_page, Exporter.preAttempt])

theorem Exporter.mem_completed_export_page (o : Except Exporter.PyExc Unit)
    (pid q : String) (pr : Exporter.Progress) (h : q ∈ pr.completed) :
    q ∈ (Exporter.export_page o pid pr).1.completed := by
  rcases Exporter.export_page_completed_cases o pid pr with hc | hc
  · rw [hc]
    exact Finset.mem_insert_of_mem h
  · rw [hc]
    exact h

theorem Exporter.mem_completed_export_page_iff (o : Except Exporter.PyExc Unit)
    (pid q : String) (pr : Exporter.Progress) (hne : q ≠ pid) :
    (q ∈ (Exporter.export_page o pid pr).1.completed) ↔ q ∈ pr.completed := by
  rcases Exporter.export_page_completed_cases o pid pr with hc | hc
  · rw [hc, Finset.mem_insert]
    simp [hne]
  · rw [hc]

theorem Exporter.export_page_failed_preserved (o : Except Exporter.PyExc Unit)
    (pid q m : String) (pr : Exporter.Progress) (hne : q ≠ pid)
    (hm : (q, m) ∈ pr.failed) :
    (q, m) ∈ (Exporter.export_page o pid pr).1.failed := by
  have hk : (q, m) ∈ Exporter.eraseKey pid pr.failed := by
    simp only [Exporter.eraseKey, List.mem_filter]
    exact ⟨hm, by simpa using hne⟩
  cases o with
  | ok u => simpa [Exporter.export_page, Exporter.preAttempt] using hk
  | error e =>
      simp only [Exporter.export_page, Exporter.preAttempt]
      exact List.mem_append_left _ hk

theorem Exporter.runPages_not_attempted (oracle : String → Except Exporter.PyExc Unit)
    (pids : List String) :
    ∀ (pr : Exporter.Progress) (q : String), q ∈ pr.completed →
      q ∉ (Exporter.runPages oracle pids pr).2.1 := by
  induction pids with
  | nil =>
      intro pr q hq
      simp [Exporter.runPages]
  | cons pid rest ih =>
      intro pr q hq
      rw [Exporter.runPages]
      split
      · exact ih pr q hq
      · rename_i hskip
        simp only [List.mem_cons, not_or]
        constructor
        · rintro rfl
          exact hskip hq
        · exact ih _ q (Exporter.mem_completed_export_page _ _ _ _ hq)

theorem Exporter.runPages_attempted_eq (oracle : String → Except Exporter.PyExc Unit) :
    ∀ (pids : List String) (pr : Exporter.Progress), pids.Nodup →
      (Exporter.runPages oracle pids pr).2.1 =
        pids.filter (fun q => decide (q ∉ pr.completed)) := by
  intro pids
  induction pids with
  | nil =>
      intro pr hnd
      simp [Exporter.runPages]
  | cons pid rest ih =>
      intro pr hnd
      have hpid : pid ∉ rest := (List.nodup_cons.mp hnd).1
      have hrest : rest.Nodup := (List.nodup_cons.mp hnd).2
      rw [Exporter.runPages]
      split
      · rename_i hskip
        rw [ih pr hrest]
        simp [hskip]
      · rename_i hskip
        simp only [List.filter_cons]
        rw [if_pos (by simpa using hskip)]
        congr 1
        rw [ih _ hrest]
        apply List.filter_congr
        intro q hq
        have hne : q ≠ pid := fun h => hpid (h ▸ hq)
        simp [Exporter.mem_completed_export_page_iff (oracle pid) pid q pr hne]

theorem Exporter.runPages_failed_preserved (oracle : String → Except Exporter.PyExc Unit) :
    ∀ (pids : List String) (pr : Exporter.Progress) (q m : String), q ∉ pids →
      (q, m) ∈ pr.failed → (q, m) ∈ (Exporter.runPages oracle pids pr).1.failed := by
  intro pids
  induction pids with
  | nil =>
      intro pr q m hq hm
      simpa [Exporter.runPages] using hm
  | cons pid rest ih =>
      intro pr q m hq hm
      have hne : q ≠ pid := fun h => hq (h ▸ List.mem_cons_self pid rest)
      have hqr : q ∉ rest := fun h => hq (List.mem_cons_of_mem pid h)
      rw [Exporter.runPages]
      split
      · exact ih pr q m hqr hm
      · exact ih _ q m hqr (Exporter.export_page_failed_preserved _ _ _ _ _ hne hm)

theorem Exporter.runPages_failure_recorded (oracle : String → Except Exporter.PyExc Unit) :
    ∀ (pids : List String) (pr : Exporter.Progress) (pid : String) (e : Exporter.PyExc),
      pids.Nodup → pid ∈ pids → pid ∉ pr.completed → oracle pid = .error e →
      (pid, Exporter.excMsg e) ∈ (Exporter.runPages oracle pids pr).1.failed := by
  intro pids
  induction pids with
  | nil =>
      intro pr pid e hnd hmem hnc herr
      cases hmem
  | cons q rest ih =>
      intro pr pid e hnd hmem hnc herr
      have hq : q ∉ rest := (List.nodup_cons.mp hnd).1
      have hrest : rest.Nodup := (List.nodup_cons.mp hnd).2
      by_cases hqp : q = pid
      · subst hqp
        rw [Exporter.runPages]
        rw [if_neg hnc]
        apply Exporter.runPages_failed_preserved oracle rest _ q _ hq
        rw [herr]
        simp only [Exporter.export_page, Exporter.preAttempt]
        exact List.mem_append_right _ (List.mem_singleton.mpr rfl)
      · have hpr : pid ∈ rest := by
          rcases List.mem_cons.mp hmem with h | h
          · exact absurd h.symm hqp
          · exact h
        rw [Exporter.runPages]
        split
        · exact ih pr pid e hrest hpr hnc herr
        · refine ih _ pid e hrest hpr ?_ herr
          rw [Exporter.mem_completed_export_page_iff (oracle q) q pid pr
            (fun h => hqp h.symm)]
          exact hnc

/-! ### C3 : per-page progress state machine -/

/-- C3: before each attempt the page id has been removed from the failed
map; after the attempt (for a page not already completed, as guaranteed by
the skip in `main`) the id belongs to exactly one of completed/failed;
`save_progress` is called exactly once with the post-outcome record (not
batched); and the page loop never invokes `export_page` on an id already in
the completed set. -/
theorem C3_progress_per_page
    (oracle : String → Except Exporter.PyExc Unit) (outcome : Except Exporter.PyExc Unit)
    (pid : String) (pr : Exporter.Progress) (pids : List String)
    (h : pid ∉ pr.completed) :
    (∀ kv ∈ (Exporter.preAttempt pid pr).failed, kv.1 ≠ pid) ∧
      ((pid ∈ (Exporter.export_page outcome pid pr).1.completed ∧
          ∀ kv ∈ (Exporter.export_page outcome pid pr).1.failed, kv.1 ≠ pid) ∨
        (pid ∉ (Exporter.export_page outcome pid pr).1.completed ∧
          ∃ m, (pid, m) ∈ (Exporter.export_page outcome pid pr).1.failed)) ∧
      (Exporter.export_page outcome pid pr).2 = [(Exporter.export_page outcome pid pr).1] ∧
      (∀ q ∈ pr.completed, q ∉ (Exporter.runPages oracle pids pr).2.1) := by
  have hpa : ∀ kv ∈ (Exporter.preAttempt pid pr).failed, kv.1 ≠ pid := by
    intro kv hkv
    have := (List.mem_filter.mp hkv).2
    simpa using this
  refine ⟨hpa, ?_, ?_, ?_⟩
  · cases outcome with
    | ok u =>
        left
        constructor
        · simp [Exporter.export_page, Exporter.preAttempt]
        · intro kv hkv
          have hkv' : kv ∈ (Exporter.preAttempt pid pr).failed := by
            simpa [Exporter.export_page] using hkv
          exact hpa kv hkv'
    | error e =>
        right
        constructor
        · simpa [Exporter.export_page, Exporter.preAttempt] using h
        · exact ⟨Exporter.excMsg e, by
            simp only [Exporter.export_page, Exporter.preAttempt]
            exact List.mem_append_right _ (List.mem_singleton.mpr rfl)⟩
  · cases outcome with
    | ok u => rfl
    | error e => rfl
  · exact fun q hq => Exporter.runPages_not_attempted oracle pids pr q hq

/-- Witness for C3 at a concrete input: page `"p"`, one failing attempt,
starting from an empty completed set with a stale failed entry for `"p"`. -/
theorem C3_progress_per_page_witness :
    ("p" ∉ (⟨∅, [("p", "old")]⟩ : Exporter.Progress).completed) ∧
      ((∀ kv ∈ (Exporter.preAttempt "p" ⟨∅, [("p", "old")]⟩).failed, kv.1 ≠ "p") ∧
        (("p" ∈ (Exporter.export_page (.error ⟨"RuntimeError", "boom"⟩) "p"
              ⟨∅, [("p", "old")]⟩).1.completed ∧
            ∀ kv ∈ (Exporter.export_page (.error ⟨"RuntimeError", "boom"⟩) "p"
              ⟨∅, [("p", "old")]⟩).1.failed, kv.1 ≠ "p") ∨
          ("p" ∉ (Exporter.export_page (.error ⟨"RuntimeError", "boom"⟩) "p"
              ⟨∅, [("p", "old")]⟩).1.completed ∧
            ∃ m, ("p", m) ∈ (Exporter.export_page (.error ⟨"RuntimeError", "boom"⟩) "p"
              ⟨∅, [("p", "old")]⟩).1.failed)) ∧
        (Exporter.export_page (.error ⟨"RuntimeError", "boom"⟩) "p"
            ⟨∅, [("p", "old")]⟩).2 =
          [(Exporter.export_page (.error ⟨"RuntimeError", "boom"⟩) "p"
            ⟨∅, [("p", "old")]⟩).1] ∧
        (∀ q ∈ (⟨∅, [("p", "old")]⟩ : Exporter.Progress).completed,
          q ∉ (Exporter.runPages (fun _ => .ok ()) ["q"]
            ⟨∅, [("p", "old")]⟩).2.1)) :=
  ⟨by decide, C3_progress_per_page (fun _ => .ok ()) (.error ⟨"RuntimeError", "boom"⟩)
    "p" ⟨∅, [("p", "old")]⟩ ["q"] (by decide)⟩

/-! ### C7 : failure semantics -/

/-- C7: a discovery failure aborts the run with exit code 1 before any page
export is attempted; an exception during a single page's export is caught,
recorded as `"{kind}: {text}"` against that page id in the failed map, and
the set of attempted pages is exactly the not-yet-completed pages in
discovery order irrespective of the outcomes — one page's failure never
prevents the export of subsequent pages. -/
theorem C7_failure_semantics (e0 : Exporter.PyExc)
    (oracle : String → Except Exporter.PyExc Unit) (pr0 : Exporter.Progress)
    (pids : List String) (pid : String) (msgE : Exporter.PyExc)
    (hnd : pids.Nodup) (hmem : pid ∈ pids) (hnc : pid ∉ pr0.completed)
    (herr : oracle pid = .error msgE) :
    Exporter.runMain (.error e0) oracle pr0 = ⟨1, none, []⟩ ∧
      (Exporter.runMain (.ok pids) oracle pr0).attempted =
        pids.filter (fun q => decide (q ∉ pr0.completed)) ∧
      (pid, Exporter.excMsg msgE) ∈ (Exporter.runPages oracle pids pr0).1.failed := by
  refine ⟨rfl, ?_, ?_⟩
  · show (Exporter.runPages oracle pids pr0).2.1 = _
    exact Exporter.runPages_attempted_eq oracle pids pr0 hnd
  · exact Exporter.runPages_failure_recorded oracle pids pr0 pid msgE hnd hmem hnc herr

/-- Witness for C7: three discovered pages with the middle one failing. -/
theorem C7_failure_semantics_witness :
    (["a", "b", "c"] : List String).Nodup ∧
      "b" ∈ (["a", "b", "c"] : List String) ∧
      ("b" ∉ (⟨∅, []⟩ : Exporter.Progress).completed) ∧
      ((fun s => if s = "b" then Except.error (⟨"ValueError", "bad"⟩ : Exporter.PyExc)
          else Except.ok ()) "b" = .error ⟨"ValueError", "bad"⟩) ∧
      (Exporter.runMain (.error ⟨"HTTPError", "500"⟩)
          (fun s => if s = "b" then Except.error (⟨"ValueError", "bad"⟩ : Exporter.PyExc)
            else Except.ok ()) ⟨∅, []⟩ = ⟨1, none, []⟩ ∧
        (Exporter.runMain (.ok ["a", "b", "c"])
            (fun s => if s = "b" then Except.error (⟨"ValueError", "bad"⟩ : Exporter.PyExc)
              else Except.ok ()) ⟨∅, []⟩).attempted =
          (["a", "b", "c"] : List String).filter
            (fun q => decide (q ∉ (⟨∅, []⟩ : Exporter.Progress).completed)) ∧
        ("b", Exporter.excMsg ⟨"ValueError", "bad"⟩) ∈
          (Exporter.runPages
            (fun s => if s = "b" then Except.error (⟨"ValueError", "bad"⟩ : Exporter.PyExc)
              else Except.ok ()) ["a", "b", "c"] ⟨∅, []⟩).1.failed) :=
  ⟨by decide, by decide, by decide, rfl,
    C7_failure_semantics ⟨"HTTPError", "500"⟩
      (fun s => if s = "b" then Except.error (⟨"ValueError", "bad"⟩ : Exporter.PyExc)
        else Except.ok ())
      ⟨∅, []⟩ ["a", "b", "c"] "b" ⟨"ValueError", "bad"⟩
      (by decide) (by decide) (by decide) rfl⟩

/-! ### C8 : pagination -/

theorem flatMap_over_map {α : Type u} (l : List Nat) (f : Nat → Nat) (g : Nat → List α) :
    (l.map f).flatMap g = l.flatMap (fun x => g (f x)) := by
  induction l with
  | nil => rfl
  | cons a t ih => simp [List.flatMap_cons, ih]

theorem Exporter.getAllPages_spec {α : Type u} (fetch : Nat → List α) (limit : Nat) :
    ∀ (K fuel start : Nat), K + 1 ≤ fuel →
      (∀ i < K, ¬ (fetch (start + i * limit)).length < limit) →
      (fetch (start + K * limit)).length < limit →
      Exporter.getAllPages fetch limit fuel start =
        ((List.range (K + 1)).flatMap (fun i => fetch (start + i * limit)),
         (List.range (K + 1)).map (fun i => start + i * limit), true) := by
  intro K
  induction K with
  | zero =>
      intro fuel start hf hlong hshort
      match fuel, hf with
      | n + 1, _ =>
          rw [Exporter.getAllPages]
          rw [if_pos (by simpa using hshort)]
          simp [List.range_succ, List.flatMap_cons]
  | succ K ih =>
      intro fuel start hf hlong hshort
      have harith : ∀ i, start + limit + i * limit = start + (i + 1) * limit := by
        intro i
        ring
      match fuel, hf with
      | n + 1, hf =>
          rw [Exporter.getAllPages]
          rw [if_neg (by simpa using hlong 0 (Nat.succ_pos K))]
          have hrec := ih n (start + limit) (by omega)
            (fun i hi => by
              rw [harith i]
              exact hlong (i + 1) (by omega))
            (by
              rw [harith K]
              exact hshort)
          rw [hrec]
          simp only [harith]
          conv_rhs => rw [List.range_succ_eq_map]
          simp only [List.flatMap_cons, List.map_cons, flatMap_over_map, List.map_map,
            Function.comp_def, Nat.succ_eq_add_one, Nat.zero_mul, Nat.add_zero, Nat.zero_add]

/-- C8: given a batch capability that first returns a short batch at offset
`K * limit` (all earlier batches full), the pagination loop of
`get_all_pages` / `find_archive_page_ids` terminates within any fuel
greater than `K`, queries exactly the strictly increasing offsets
`0, limit, …, K * limit`, stops exactly after that first short batch, and
returns the concatenation of all fetched batches in fetch order.  The
capability interface exposes no total-count field at all. -/
theorem C8_pagination {α : Type u} (fetch : Nat → List α) (limit K fuel : Nat)
    (hfuel : K + 1 ≤ fuel)
    (hlong : ∀ i < K, ¬ (fetch (i * limit)).length < limit)
    (hshort : (fetch (K * limit)).length < limit) :
    Exporter.getAllPages fetch limit fuel 0 =
        ((List.range (K + 1)).flatMap (fun i => fetch (i * limit)),
         (List.range (K + 1)).map (fun i => i * limit), true) ∧
      List.Pairwise (· < ·) ((List.range (K + 1)).map (fun i => i * limit)) := by
  have hlim : 0 < limit := Nat.lt_of_le_of_lt (Nat.zero_le _) hshort
  constructor
  · have h := Exporter.getAllPages_spec fetch limit K fuel 0 hfuel
      (by simpa using hlong) (by simpa using hshort)
    simpa using h
  · refine List.Pairwise.map _ ?_ (List.pairwise_lt_range (K + 1))
    intro a b hab
    exact (Nat.mul_lt_mul_right hlim).mpr hab

/-- Witness for C8: page size 2, batches `["a", "b"]` then the short batch
`["c"]`; the loop stops after the second query. -/
theorem C8_pagination_witness :
    0 + 1 + 1 ≤ 5 ∧
      (∀ i < 1, ¬ ((fun s => if s = 0 then ["a", "b"] else ["c"]) (i * 2)).length < 2) ∧
      (((fun s => if s = 0 then ["a", "b"] else ["c"]) (1 * 2)).length < 2) ∧
      (Exporter.getAllPages (fun s => if s = 0 then ["a", "b"] else ["c"]) 2 5 0 =
          ((List.range (1 + 1)).flatMap
              (fun i => (fun s => if s = 0 then ["a", "b"] else ["c"]) (i * 2)),
           (List.range (1 + 1)).map (fun i => i * 2), true) ∧
        List.Pairwise (· < ·) ((List.range (1 + 1)).map (fun i => i * 2))) :=
  ⟨by omega, by decide, by decide,
    C8_pagination (fun s => if s = 0 then ["a", "b"] else ["c"]) 2 1 5
      (by omega) (by decide) (by decide)⟩

/-! ### C1 : size-bounded merge -/

theorem utf8Len_append (a b : String) : utf8Len (a ++ b) = utf8Len a + utf8Len b := by
  simp [PyStr.utf8Len, String.data_append]

theorem utf8Len_sep : PyStr.utf8Len "\n\n" = 2 := by decide

theorem Merger.fileSize_nil : Merger.fileSize [] = 0 := by decide

theorem Merger.fileSize_singleton (e : String) : Merger.fileSize [e] = PyStr.utf8Len e := rfl

theorem Merger.fileContent_cons (x : String) (t : List String) :
    Merger.fileContent (x :: t) = if t = [] then x else x ++ "\n\n" ++ Merger.fileContent t := by
  cases t with
  | nil => rfl
  | cons y t' => rfl

theorem Merger.fileSize_append_single (l : List String) (e : String) (hl : l ≠ []) :
    Merger.fileSize (l ++ [e]) = Merger.fileSize l + 2 + PyStr.utf8Len e := by
  induction l with
  | nil => cases hl rfl
  | cons x t ih =>
      by_cases ht : t = []
      · subst ht
        simp only [Merger.fileSize]
        rw [show Merger.fileContent ([x] ++ [e]) = x ++ "\n\n" ++ e from rfl,
          show Merger.fileContent [x] = x from rfl,
          utf8Len_append, utf8Len_append, utf8Len_sep]
      · have hne : t ++ [e] ≠ [] := by simp
        rw [show (x :: t) ++ [e] = x :: (t ++ [e]) from rfl]
        simp only [Merger.fileSize] at ih ⊢
        rw [Merger.fileContent_cons x (t ++ [e]), if_neg hne,
          Merger.fileContent_cons x t, if_neg ht,
          utf8Len_append, utf8Len_append, utf8Len_sep, ih ht,
          utf8Len_append, utf8Len_append, utf8Len_sep]
        omega

theorem Merger.mergeStep_inv (maxBytes : Nat) (st : Merger.MergeSt) (e : String)
    (h1 : ∀ part ∈ st.flushed, Merger.PartOk maxBytes part)
    (h2 : Merger.fileSize st.current ≤ st.currentSize)
    (h3 : st.current = [] → st.currentSize = 0)
    (h4 : st.current ≠ [] → Merger.PartOk maxBytes st.current) :
    (∀ part ∈ (Merger.mergeStep maxBytes st e).flushed, Merger.PartOk maxBytes part) ∧
      Merger.fileSize (Merger.mergeStep maxBytes st e).current ≤
        (Merger.mergeStep maxBytes st e).currentSize ∧
      ((Merger.mergeStep maxBytes st e).current = [] →
        (Merger.mergeStep maxBytes st e).currentSize = 0) ∧
      ((Merger.mergeStep maxBytes st e).current ≠ [] →
        Merger.PartOk maxBytes (Merger.mergeStep maxBytes st e).current) := by
  have hok : Merger.PartOk maxBytes [e] := by
    rcases le_or_lt (utf8Len e) maxBytes with hle | hlt
    · exact Or.inl (by rw [Merger.fileSize_singleton]; exact hle)
    · exact Or.inr ⟨e, rfl, hlt⟩
  by_cases hemp : st.current = []
  · have hstep : Merger.mergeStep maxBytes st e =
        { flushed := st.flushed, current := [e], currentSize := st.currentSize + utf8Len e } := by
      rw [Merger.mergeStep]
      simp [hemp]
    rw [hstep]
    dsimp only
    refine ⟨h1, ?_, ?_, ?_⟩
    · rw [Merger.fileSize_singleton, h3 hemp]
      omega
    · intro h
      simp at h
    · intro _
      exact hok
  · have hie : st.current.isEmpty = false := by
      simpa [List.isEmpty_iff] using hemp
    by_cases hover : maxBytes < st.currentSize + 2 + utf8Len e
    · have hstep : Merger.mergeStep maxBytes st e =
          { flushed := st.flushed ++ [st.current], current := [e],
            currentSize := utf8Len e + 2 } := by
        rw [Merger.mergeStep]
        simp [hie, hover]
      rw [hstep]
      dsimp only
      refine ⟨?_, ?_, ?_, ?_⟩
      · intro part hp
        rcases List.mem_append.mp hp with hp | hp
        · exact h1 part hp
        · rw [List.mem_singleton.mp hp]
          exact h4 hemp
      · rw [Merger.fileSize_singleton]
        omega
      · intro h
        simp at h
      · intro _
        exact hok
    · have hstep : Merger.mergeStep maxBytes st e =
          { flushed := st.flushed, current := st.current ++ [e],
            currentSize := st.currentSize + utf8Len e + 2 } := by
        rw [Merger.mergeStep]
        simp [hie, hover]
      rw [hstep]
      dsimp only
      have hfs := Merger.fileSize_append_single st.current e hemp
      refine ⟨h1, ?_, ?_, ?_⟩
      · rw [hfs]
        omega
      · intro h
        rcases List.append_eq_nil.mp h with ⟨h', h''⟩
        exact absurd h'' (by simp)
      · intro _
        exact Or.inl (by rw [hfs]; omega)

theorem Merger.foldl_mergeStep_inv (maxBytes : Nat) :
    ∀ (entries : List String) (st : Merger.MergeSt),
      (∀ part ∈ st.flushed, Merger.PartOk maxBytes part) →
      Merger.fileSize st.current ≤ st.currentSize →
      (st.current = [] → st.currentSize = 0) →
      (st.current ≠ [] → Merger.PartOk maxBytes st.current) →
      (∀ part ∈ (entries.foldl (Merger.mergeStep maxBytes) st).flushed,
          Merger.PartOk maxBytes part) ∧
        ((entries.foldl (Merger.mergeStep maxBytes) st).current ≠ [] →
          Merger.PartOk maxBytes (entries.foldl (Merger.mergeStep maxBytes) st).current) := by
  intro entries
  induction entries with
  | nil =>
      intro st h1 h2 h3 h4
      exact ⟨h1, h4⟩
  | cons e rest ih =>
      intro st h1 h2 h3 h4
      obtain ⟨g1, g2, g3, g4⟩ := Merger.mergeStep_inv maxBytes st e h1 h2 h3 h4
      exact ih (Merger.mergeStep maxBytes st e) g1 g2 g3 g4

theorem Merger.mergeStep_flatten (maxBytes : Nat) (st : Merger.MergeSt) (e : String) :
    (Merger.mergeStep maxBytes st e).flushed.flatten ++
        (Merger.mergeStep maxBytes st e).current =
      st.flushed.flatten ++ st.current ++ [e] := by
  by_cases hemp : st.current = []
  · have h : Merger.mergeStep maxBytes st e =
        { flushed := st.flushed, current := [e],
          currentSize := st.currentSize + PyStr.utf8Len e } := by
      rw [Merger.mergeStep]
      simp [hemp]
    rw [h, hemp]
    simp
  · have hie : st.current.isEmpty = false := by
      simpa [List.isEmpty_iff] using hemp
    by_cases hover : maxBytes < st.currentSize + 2 + PyStr.utf8Len e
    · have h : Merger.mergeStep maxBytes st e =
          { flushed := st.flushed ++ [st.current], current := [e],
            currentSize := PyStr.utf8Len e + 2 } := by
        rw [Merger.mergeStep]
        simp [hie, hover]
      rw [h]
      simp
    · have h : Merger.mergeStep maxBytes st e =
          { flushed := st.flushed, current := st.current ++ [e],
            currentSize := st.currentSize + PyStr.utf8Len e + 2 } := by
        rw [Merger.mergeStep]
        simp [hie, hover]
      rw [h]
      simp

theorem Merger.foldl_mergeStep_flatten (maxBytes : Nat) :
    ∀ (entries : List String) (st : Merger.MergeSt),
      (entries.foldl (Merger.mergeStep maxBytes) st).flushed.flatten ++
          (entries.foldl (Merger.mergeStep maxBytes) st).current =
        st.flushed.flatten ++ st.current ++ entries := by
  intro entries
  induction entries with
  | nil =>
      intro st
      simp
  | cons e rest ih =>
      intro st
      calc (rest.foldl (Merger.mergeStep maxBytes) (Merger.mergeStep maxBytes st e)).flushed.flatten ++
            (rest.foldl (Merger.mergeStep maxBytes) (Merger.mergeStep maxBytes st e)).current
          = (Merger.mergeStep maxBytes st e).flushed.flatten ++
              (Merger.mergeStep maxBytes st e).current ++ rest := ih _
        _ = st.flushed.flatten ++ st.current ++ [e] ++ rest := by
              rw [Merger.mergeStep_flatten]
        _ = st.flushed.flatten ++ st.current ++ (e :: rest) := by simp

theorem C1_merge_section_bounded (maxBytes : Nat) (pages : List (String × String)) :
    (∀ part ∈ Merger.merge_section maxBytes pages, Merger.PartOk maxBytes part) ∧
      (Merger.merge_section maxBytes pages).flatten = pages.map Merger.mkEntry := by
  have h0 : Merger.fileSize ([] : List String) ≤ 0 := by
    rw [Merger.fileSize_nil]
  obtain ⟨g1, g4⟩ := Merger.foldl_mergeStep_inv maxBytes (pages.map Merger.mkEntry)
    ⟨[], [], 0⟩ (by intro part hp; cases hp) h0 (fun _ => rfl) (fun h => absurd rfl h)
  have hflat := Merger.foldl_mergeStep_flatten maxBytes (pages.map Merger.mkEntry) ⟨[], [], 0⟩
  simp only [List.flatten_nil, List.nil_append] at hflat
  rw [Merger.merge_section]
  constructor
  · intro part hp
    split at hp
    · exact g1 part hp
    · rename_i hne
      rcases List.mem_append.mp hp with hp | hp
      · exact g1 part hp
      · rw [List.mem_singleton.mp hp]
        exact g4 (by simpa [List.isEmpty_iff] using hne)
  · split
    · rename_i hemp
      rw [List.isEmpty_iff.mp hemp, List.append_nil] at hflat
      exact hflat
    · rw [List.flatten_append]
      simpa using hflat

theorem C1_merge_section_bounded_witness :
    (Merger.mkEntry ("A", "x") ∈ [Merger.mkEntry ("A", "x")] ∧
      [Merger.mkEntry ("A", "x")] ∈ Merger.merge_section 30 [("A", "x"), ("B", "y")]) ∧
      Merger.PartOk 30 [Merger.mkEntry ("A", "x")] ∧
      (Merger.merge_section 30 [("A", "x"), ("B", "y")]).flatten =
        [("A", "x"), ("B", "y")].map Merger.mkEntry :=
  ⟨⟨by decide, by decide⟩,
    (C1_merge_section_bounded 30 [("A", "x"), ("B", "y")]).1 _ (by decide),
    (C1_merge_section_bounded 30 [("A", "x"), ("B", "y")]).2⟩

/-! ### C5 : html_to_text normalization -/

theorem Merger.hasRun3_le (n : Nat) (l : List Char) (h : Merger.hasRun3 n l = false) :
    n ≤ 2 := by
  cases l with
  | nil =>
      rw [Merger.hasRun3] at h
      simp only [decide_eq_false_iff_not] at h
      omega
  | cons c cs =>
      rw [Merger.hasRun3] at h
      by_cases h3 : 3 ≤ n
      · rw [if_pos h3] at h
        cases h
      · omega

theorem Merger.hasRun3_mono (l : List Char) :
    ∀ (n m : Nat), n ≤ m → Merger.hasRun3 m l = false → Merger.hasRun3 n l = false := by
  induction l with
  | nil =>
      intro n m hnm h
      rw [Merger.hasRun3] at h ⊢
      simp only [decide_eq_false_iff_not] at h ⊢
      omega
  | cons c cs ih =>
      intro n m hnm h
      rw [Merger.hasRun3] at h ⊢
      have hm : ¬ 3 ≤ m := by
        by_contra h3
        rw [if_pos h3] at h
        cases h
      rw [if_neg hm] at h
      rw [if_neg (by omega : ¬ 3 ≤ n)]
      by_cases hc : c = '\n'
      · rw [if_pos hc] at h ⊢
        exact ih (n + 1) (m + 1) (by omega) h
      · rw [if_neg hc] at h ⊢
        exact h

theorem Merger.hasRun3_tail (c : Char) (cs : List Char)
    (h : Merger.hasRun3 0 (c :: cs) = false) : Merger.hasRun3 0 cs = false := by
  rw [Merger.hasRun3] at h
  rw [if_neg (by omega : ¬ 3 ≤ 0)] at h
  by_cases hc : c = '\n'
  · rw [if_pos hc] at h
    exact Merger.hasRun3_mono cs 0 1 (by omega) h
  · rw [if_neg hc] at h
    exact h

theorem Merger.hasRun3_dropWhile (p : Char → Bool) (l : List Char)
    (h : Merger.hasRun3 0 l = false) : Merger.hasRun3 0 (l.dropWhile p) = false := by
  induction l with
  | nil => exact h
  | cons c cs ih =>
      rw [List.dropWhile_cons]
      split
      · exact ih (Merger.hasRun3_tail c cs h)
      · exact h

theorem Merger.hasRun3_prefix (l₁ : List Char) :
    ∀ (l₂ : List Char) (n : Nat), l₁ <+: l₂ → Merger.hasRun3 n l₂ = false →
      Merger.hasRun3 n l₁ = false := by
  induction l₁ with
  | nil =>
      intro l₂ n hp h
      have hn : n ≤ 2 := Merger.hasRun3_le n l₂ h
      simp only [Merger.hasRun3, decide_eq_false_iff_not]
      omega
  | cons a t ih =>
      intro l₂ n hp h
      rcases hp with ⟨r, hr⟩
      subst hr
      rw [List.cons_append] at h
      rw [Merger.hasRun3] at h ⊢
      have hn : ¬ 3 ≤ n := by
        by_contra h3
        rw [if_pos h3] at h
        cases h
      rw [if_neg hn] at h ⊢
      by_cases hc : a = '\n'
      · rw [if_pos hc] at h ⊢
        exact ih (t ++ r) (n + 1) ⟨r, rfl⟩ h
      · rw [if_neg hc] at h ⊢
        exact ih (t ++ r) 0 ⟨r, rfl⟩ h

theorem Merger.hasRun3_stripChars (p : Char → Bool) (l : List Char)
    (h : Merger.hasRun3 0 l = false) :
    Merger.hasRun3 0 (PyStr.stripChars p l) = false := by
  have h1 : Merger.hasRun3 0 (l.dropWhile p) = false := Merger.hasRun3_dropWhile p l h
  have hpre : PyStr.stripChars p l <+: l.dropWhile p := by
    have h2 := (@List.reverse_prefix _ (List.dropWhile p (l.dropWhile p).reverse)
      ((l.dropWhile p).reverse)).mpr (List.dropWhile_suffix p)
    rw [List.reverse_reverse] at h2
    exact h2
  exact Merger.hasRun3_prefix _ _ 0 hpre h1

theorem Merger.hasRun3_collapseEmit (n : Nat) :
    Merger.hasRun3 0 (Merger.collapseEmit n) = false := by
  rw [Merger.collapseEmit]
  split
  · decide
  · rename_i hn
    have hl : n < 3 := by omega
    interval_cases n <;> decide

theorem Merger.hasRun3_emit_append (n : Nat) (c : Char) (X : List Char) (hc : ¬ c = '\n') :
    Merger.hasRun3 0 (Merger.collapseEmit n ++ c :: X) = Merger.hasRun3 0 X := by
  have key : ∀ (k : Nat), k ≤ 2 →
      Merger.hasRun3 0 (List.replicate k '\n' ++ c :: X) = Merger.hasRun3 0 X := by
    intro k hk
    interval_cases k
    · simp only [List.replicate, List.nil_append]
      rw [Merger.hasRun3, if_neg (by omega : ¬ 3 ≤ 0), if_neg hc]
    · simp only [List.replicate, List.nil_append, List.cons_append]
      rw [Merger.hasRun3, if_neg (by omega : ¬ 3 ≤ 0), if_pos rfl]
      rw [Merger.hasRun3, if_neg (by omega : ¬ 3 ≤ 1), if_neg hc]
    · simp only [List.replicate, List.nil_append, List.cons_append]
      rw [Merger.hasRun3, if_neg (by omega : ¬ 3 ≤ 0), if_pos rfl]
      rw [Merger.hasRun3, if_neg (by omega : ¬ 3 ≤ 1), if_pos rfl]
      rw [Merger.hasRun3, if_neg (by omega : ¬ 3 ≤ 2), if_neg hc]
  rw [Merger.collapseEmit]
  split
  · exact key 2 (by omega)
  · rename_i hn
    exact key n (by omega)

theorem Merger.hasRun3_collapseGo (l : List Char) :
    ∀ (n : Nat), Merger.hasRun3 0 (Merger.collapseGo n l) = false := by
  induction l with
  | nil =>
      intro n
      exact Merger.hasRun3_collapseEmit n
  | cons c cs ih =>
      intro n
      rw [Merger.collapseGo]
      by_cases hc : c = '\n'
      · rw [if_pos hc]
        exact ih (n + 1)
      · rw [if_neg hc, Merger.hasRun3_emit_append n c _ hc]
        exact ih 0

theorem Merger.collapseGo_of_noRun (l : List Char) :
    ∀ (n : Nat), n ≤ 2 → Merger.hasRun3 n l = false →
      Merger.collapseGo n l = List.replicate n '\n' ++ l := by
  induction l with
  | nil =>
      intro n hn h
      rw [Merger.collapseGo, Merger.collapseEmit, if_neg (by omega : ¬ 3 ≤ n)]
      simp
  | cons c cs ih =>
      intro n hn h
      rw [Merger.hasRun3, if_neg (by omega : ¬ 3 ≤ n)] at h
      rw [Merger.collapseGo]
      by_cases hc : c = '\n'
      · rw [if_pos hc] at h ⊢
        have h1 : Merger.hasRun3 (n + 1) cs = false := h
        have hn1 : n + 1 ≤ 2 := Merger.hasRun3_le (n + 1) cs h1
        rw [ih (n + 1) hn1 h1, List.replicate_succ']
        subst hc
        simp
      · rw [if_neg hc] at h ⊢
        rw [Merger.collapseEmit, if_neg (by omega : ¬ 3 ≤ n), ih 0 (by omega) h]
        simp

theorem head?_dropWhile (p : Char → Bool) (l : List Char) (c : Char)
    (h : (l.dropWhile p).head? = some c) : p c = false := by
  induction l with
  | nil => cases h
  | cons a t ih =>
      rw [List.dropWhile_cons] at h
      split at h
      · exact ih h
      · rename_i hp
        rw [List.head?_cons] at h
        cases h
        simpa using hp

theorem dropWhile_dropWhile (p : Char → Bool) (l : List Char) :
    (l.dropWhile p).dropWhile p = l.dropWhile p := by
  induction l with
  | nil => rfl
  | cons a t ih =>
      rw [List.dropWhile_cons]
      split
      · exact ih
      · rename_i hp
        rw [List.dropWhile_cons, if_neg hp]

theorem suffix_getLast? (l₁ l₂ : List Char) (h : l₁ <:+ l₂) (hne : l₁ ≠ []) :
    l₁.getLast? = l₂.getLast? := by
  rcases h with ⟨r, hr⟩
  subst hr
  exact (List.getLast?_append_of_ne_nil r hne).symm

theorem stripChars_head? (p : Char → Bool) (l : List Char) (c : Char)
    (h : (PyStr.stripChars p l).head? = some c) : p c = false := by
  rw [PyStr.stripChars, List.head?_reverse] at h
  have hne : ((l.dropWhile p).reverse.dropWhile p) ≠ [] := by
    intro he
    rw [he] at h
    cases h
  rw [suffix_getLast? _ _ (List.dropWhile_suffix p) hne, List.getLast?_reverse] at h
  exact head?_dropWhile p l c h

theorem stripChars_getLast? (p : Char → Bool) (l : List Char) (c : Char)
    (h : (PyStr.stripChars p l).getLast? = some c) : p c = false := by
  rw [PyStr.stripChars, List.getLast?_reverse] at h
  exact head?_dropWhile p (l.dropWhile p).reverse c h

theorem dropWhile_eq_self_of_head (p : Char → Bool) (l : List Char)
    (h : ∀ c, l.head? = some c → p c = false) : l.dropWhile p = l := by
  cases l with
  | nil => rfl
  | cons a t =>
      rw [List.dropWhile_cons, if_neg (by simp [h a rfl])]

theorem stripChars_idem (p : Char → Bool) (l : List Char) :
    PyStr.stripChars p (PyStr.stripChars p l) = PyStr.stripChars p l := by
  have hfront : (PyStr.stripChars p l).dropWhile p = PyStr.stripChars p l :=
    dropWhile_eq_self_of_head p _ (fun c hc => stripChars_head? p l c hc)
  have hback : (PyStr.stripChars p l).reverse.dropWhile p = (PyStr.stripChars p l).reverse := by
    apply dropWhile_eq_self_of_head
    intro c hc
    rw [List.head?_reverse] at hc
    exact stripChars_getLast? p l c hc
  rw [PyStr.stripChars, hfront, hback, List.reverse_reverse]

/-- C5 (amended): for every parser capability and input, the output of
`html_to_text` contains no run of three or more consecutive newlines and
has no leading or trailing whitespace; `html_to_text` is a pure function
(determinism is definitional in the embedding); and it is idempotent on its
own output whenever re-parsing that output yields it back as a plain text
node.  The newline-collapse and whitespace-strip postconditions hold with
no hypothesis at all; only the idempotence conjunct carries the re-parse
condition.  (Unconditional idempotence is false: see the counterexample,
where the first pass decodes `&lt;`/`&gt;` character references and the
second pass then parses the produced `<b>` as markup.) -/
theorem C5_html_to_text (parse : String → Html.Node) (s : String) :
    Merger.hasRun3 0 (Merger.html_to_text parse s).data = false ∧
      (∀ c, (Merger.html_to_text parse s).data.head? = some c → PyStr.isPyWS c = false) ∧
      (∀ c, (Merger.html_to_text parse s).data.getLast? = some c → PyStr.isPyWS c = false) ∧
      (parse (Merger.html_to_text parse s) = .text (Merger.html_to_text parse s) →
        Merger.html_to_text parse (Merger.html_to_text parse s) =
          Merger.html_to_text parse s) := by
  have hydata : (Merger.html_to_text parse s).data =
      PyStr.stripChars PyStr.isPyWS
        (Merger.collapseGo 0 (Html.getText "\n" false (parse s)).data) := rfl
  have hrun : Merger.hasRun3 0 (Merger.html_to_text parse s).data = false := by
    rw [hydata]
    exact Merger.hasRun3_stripChars _ _ (Merger.hasRun3_collapseGo _ 0)
  refine ⟨hrun, ?_, ?_, ?_⟩
  · intro c hc
    rw [hydata] at hc
    exact stripChars_head? _ _ c hc
  · intro c hc
    rw [hydata] at hc
    exact stripChars_getLast? _ _ c hc
  · intro hre
    show PyStr.pyStrip (Merger.collapseNewlines
        (Html.getText "\n" false (parse (Merger.html_to_text parse s)))) =
      Merger.html_to_text parse s
    rw [hre]
    have hgt : Html.getText "\n" false (.text (Merger.html_to_text parse s)) =
        Merger.html_to_text parse s := rfl
    rw [hgt]
    have hcol : Merger.collapseNewlines (Merger.html_to_text parse s) =
        Merger.html_to_text parse s := by
      show (⟨Merger.collapseGo 0 (Merger.html_to_text parse s).data⟩ : String) = _
      rw [Merger.collapseGo_of_noRun _ 0 (by omega) hrun]
      rfl
    rw [hcol]
    show (⟨PyStr.stripChars PyStr.isPyWS (Merger.html_to_text parse s).data⟩ : String) =
      Merger.html_to_text parse s
    rw [hydata, stripChars_idem, ← hydata]

/-- Witness for C5: the plain-text parser capability on an input with a run
of four newlines, with the re-parse condition of the idempotence conjunct
discharged concretely. -/
theorem C5_html_to_text_witness :
    (Merger.hasRun3 0 (Merger.html_to_text (fun t => Html.Node.text t) "a\n\n\n\nb").data = false ∧
      (∀ c, (Merger.html_to_text (fun t => Html.Node.text t) "a\n\n\n\nb").data.head? = some c →
        PyStr.isPyWS c = false) ∧
      (∀ c, (Merger.html_to_text (fun t => Html.Node.text t) "a\n\n\n\nb").data.getLast? = some c →
        PyStr.isPyWS c = false) ∧
      ((fun t => Html.Node.text t) (Merger.html_to_text (fun t => Html.Node.text t) "a\n\n\n\nb") =
          .text (Merger.html_to_text (fun t => Html.Node.text t) "a\n\n\n\nb") →
        Merger.html_to_text (fun t => Html.Node.text t)
            (Merger.html_to_text (fun t => Html.Node.text t) "a\n\n\n\nb") =
          Merger.html_to_text (fun t => Html.Node.text t) "a\n\n\n\nb")) ∧
      Merger.html_to_text (fun t => Html.Node.text t)
          (Merger.html_to_text (fun t => Html.Node.text t) "a\n\n\n\nb") =
        Merger.html_to_text (fun t => Html.Node.text t) "a\n\n\n\nb" :=
  ⟨C5_html_to_text (fun t => Html.Node.text t) "a\n\n\n\nb",
    (C5_html_to_text (fun t => Html.Node.text t) "a\n\n\n\nb").2.2.2 rfl⟩

/-- Counterexample to C5 as stated: `html_to_text` is not idempotent on the
input `&lt;b&gt;`.  The first pass yields the text `<b>` (the parser decodes
the character references); re-running the function parses `<b>` as a `b`
element with no text, yielding `""`. -/
theorem C5_counterexample :
    Merger.html_to_text Html.parse0 (Merger.html_to_text Html.parse0 "&lt;b&gt;") ≠
      Merger.html_to_text Html.parse0 "&lt;b&gt;" := by decide

/-! ### C2 : hierarchical path resolution -/

mutual

theorem Merger.walkFS_shape : ∀ (t : Merger.FS), ∀ e ∈ Merger.walkFS t, e.2 ≠ []
  | .file => by
      intro e he
      cases he
  | .dir entries => by
      intro e he
      rw [Merger.walkFS] at he
      rcases List.mem_append.mp he with h | h
      · rcases List.mem_map.mp h with ⟨f, hf, hfe⟩
        rw [← hfe]
        simp
      · rcases Merger.walkList_shape entries e h with ⟨n, r, hr, -, -⟩
        rw [hr]
        simp

theorem Merger.walkList_shape : ∀ (es : List (String × Merger.FS)),
    ∀ e ∈ Merger.walkList es, ∃ n r, e.2 = n :: r ∧ n ∈ es.map Prod.fst ∧ r ≠ []
  | [] => by
      intro e he
      cases he
  | (n, t) :: rest => by
      intro e he
      rw [Merger.walkList] at he
      rcases List.mem_append.mp he with h | h
      · rcases List.mem_map.mp h with ⟨e0, he0, hee⟩
        refine ⟨n, e0.2, ?_, by simp, Merger.walkFS_shape t e0 he0⟩
        rw [← hee]
      · rcases Merger.walkList_shape rest e h with ⟨m, r, hr, hm, hrne⟩
        exact ⟨m, r, hr, by simp [hm], hrne⟩

end

theorem Merger.fileEntries_file_cons (n : String) (rest : List (String × Merger.FS)) :
    Merger.fileEntries ((n, .file) :: rest) =
      (if pyEndsWith n ".html" then [((splitext n).1, [n])] else []) ++
        Merger.fileEntries rest := by
  rw [Merger.fileEntries, Merger.fileEntries, Merger.childFiles]
  rw [List.filter_cons]
  by_cases h : pyEndsWith n ".html"
  · rw [if_pos h, if_pos h]
    rfl
  · rw [if_neg h, if_neg h]
    rfl

theorem Merger.fileEntries_dir_cons (n : String) (sub : List (String × Merger.FS))
    (rest : List (String × Merger.FS)) :
    Merger.fileEntries ((n, .dir sub) :: rest) = Merger.fileEntries rest := by
  rw [Merger.fileEntries, Merger.fileEntries, Merger.childFiles]

mutual

theorem Merger.walkFS_perm : ∀ (t : Merger.FS),
    (Merger.walkFS t).Perm (Merger.htmlSpecFS t)
  | .file => List.Perm.refl []
  | .dir entries => by
      rw [Merger.walkFS, Merger.htmlSpecFS]
      have hhere : (((sortStrings (Merger.childFiles entries)).filter
            (fun f => pyEndsWith f ".html")).map
          (fun f => ((splitext f).1, [f]))).Perm (Merger.fileEntries entries) := by
        apply List.Perm.map
        apply List.Perm.filter
        exact List.perm_insertionSort _ _
      exact (hhere.append_right _).trans (Merger.walkParts_perm entries)

theorem Merger.walkParts_perm : ∀ (es : List (String × Merger.FS)),
    (Merger.fileEntries es ++ Merger.walkList es).Perm (Merger.htmlSpecList es)
  | [] => by
      rw [Merger.walkList, Merger.htmlSpecList]
      exact List.Perm.refl _
  | (n, .file) :: rest => by
      rw [Merger.walkList, Merger.htmlSpecList, Merger.fileEntries_file_cons]
      rw [Merger.walkFS]
      rw [List.map_nil, List.nil_append, List.append_assoc]
      exact List.Perm.append_left _ (Merger.walkParts_perm rest)
  | (n, .dir sub) :: rest => by
      rw [Merger.walkList, Merger.htmlSpecList, Merger.fileEntries_dir_cons]
      have h1 : ((Merger.fileEntries rest ++
            (Merger.walkFS (.dir sub)).map (fun e => (e.1, n :: e.2))) ++
            Merger.walkList rest).Perm
          (((Merger.walkFS (.dir sub)).map (fun e => (e.1, n :: e.2)) ++
            Merger.fileEntries rest) ++ Merger.walkList rest) :=
        List.Perm.append_right _ (@List.perm_append_comm _ _ _)
      rw [← List.append_assoc]
      refine h1.trans ?_
      rw [List.append_assoc]
      exact List.Perm.append (List.Perm.map _ (Merger.walkFS_perm (.dir sub)))
        (Merger.walkParts_perm rest)

end

theorem dropLast_cons_ne_nil (n : String) (l : List String) (h : l ≠ []) :
    (n :: l).dropLast = n :: l.dropLast := by
  cases l with
  | nil => cases h rfl
  | cons a t => rfl

theorem Merger.strictAnc_cons (n m : String) (x y : List String) :
    Merger.StrictAnc (n :: x) (m :: y) ↔ n = m ∧ Merger.StrictAnc x y := by
  constructor
  · rintro ⟨hp, hne⟩
    rcases List.cons_prefix_cons.mp hp with ⟨hnm, hxy⟩
    subst hnm
    refine ⟨rfl, hxy, ?_⟩
    intro hx
    exact hne (by rw [hx])
  · rintro ⟨hnm, hxy, hne⟩
    subst hnm
    exact ⟨List.cons_prefix_cons.mpr ⟨rfl, hxy⟩, fun h => hne (by injection h)⟩

theorem Merger.pairwise_triv (l : List (String × List String))
    (h : ∀ a ∈ l, Merger.dirOf a.2 = []) :
    List.Pairwise (fun a b => ¬ Merger.StrictAnc (Merger.dirOf b.2) (Merger.dirOf a.2)) l := by
  induction l with
  | nil => exact List.Pairwise.nil
  | cons a t ih =>
      refine List.Pairwise.cons ?_ (ih (fun x hx => h x (List.mem_cons_of_mem a hx)))
      intro b hb
      rw [h a (List.mem_cons_self a t)]
      rintro ⟨hp, hne⟩
      exact hne (List.prefix_nil.mp hp)

mutual

theorem Merger.walkFS_pairwise : ∀ (t : Merger.FS), Merger.wfFS t = true →
    List.Pairwise (fun a b => ¬ Merger.StrictAnc (Merger.dirOf b.2) (Merger.dirOf a.2))
      (Merger.walkFS t)
  | .file => fun _ => List.Pairwise.nil
  | .dir entries => by
      intro hwf
      rw [Merger.wfFS] at hwf
      simp only [Bool.and_eq_true, decide_eq_true_eq] at hwf
      obtain ⟨hnd, hwl⟩ := hwf
      rw [Merger.walkFS]
      rw [List.pairwise_append]
      refine ⟨?_, Merger.walkList_pairwise entries hwl hnd, ?_⟩
      · apply Merger.pairwise_triv
        intro a ha
        rcases List.mem_map.mp ha with ⟨f, hf, hfe⟩
        rw [← hfe]
        rfl
      · intro a ha b hb
        rcases List.mem_map.mp ha with ⟨f, hf, hfe⟩
        have hda : Merger.dirOf a.2 = [] := by
          rw [← hfe]
          rfl
        rw [hda]
        rintro ⟨hp, hne⟩
        exact hne (List.prefix_nil.mp hp)

theorem Merger.walkList_pairwise : ∀ (es : List (String × Merger.FS)),
    Merger.wfList es = true → (es.map Prod.fst).Nodup →
    List.Pairwise (fun a b => ¬ Merger.StrictAnc (Merger.dirOf b.2) (Merger.dirOf a.2))
      (Merger.walkList es)
  | [] => fun _ _ => List.Pairwise.nil
  | (n, t) :: rest => by
      intro hwl hnd
      rw [Merger.wfList] at hwl
      simp only [Bool.and_eq_true] at hwl
      obtain ⟨hwt, hwr⟩ := hwl
      rw [List.map_cons, List.nodup_cons] at hnd
      obtain ⟨hnn, hndr⟩ := hnd
      rw [Merger.walkList]
      rw [List.pairwise_append]
      refine ⟨?_, Merger.walkList_pairwise rest hwr hndr, ?_⟩
      · rw [List.pairwise_map]
        refine (Merger.walkFS_pairwise t hwt).imp_of_mem ?_
        intro a b ha hb hr
        have hane : a.2 ≠ [] := Merger.walkFS_shape t a ha
        have hbne : b.2 ≠ [] := Merger.walkFS_shape t b hb
        show ¬ Merger.StrictAnc ((n :: b.2).dropLast) ((n :: a.2).dropLast)
        rw [dropLast_cons_ne_nil n _ hbne, dropLast_cons_ne_nil n _ hane]
        intro hsa
        exact hr (Merger.strictAnc_cons n n _ _ |>.mp hsa).2
      · intro a ha b hb
        rcases List.mem_map.mp ha with ⟨a0, ha0, hae⟩
        rcases Merger.walkList_shape rest b hb with ⟨m, r, hbr, hm, hrne⟩
        have ha0ne : a0.2 ≠ [] := Merger.walkFS_shape t a0 ha0
        have hda : Merger.dirOf a.2 = n :: a0.2.dropLast := by
          rw [← hae]
          exact dropLast_cons_ne_nil n _ ha0ne
        have hdb : Merger.dirOf b.2 = m :: r.dropLast := by
          rw [Merger.dirOf, hbr]
          exact dropLast_cons_ne_nil m r hrne
        rw [hda, hdb]
        intro hsa
        have hmn : m = n := (Merger.strictAnc_cons m n _ _ |>.mp hsa).1
        exact hnn (hmn ▸ hm)

end

theorem Merger.wfList_mem : ∀ (es : List (String × Merger.FS)), Merger.wfList es = true →
    ∀ e ∈ es, Merger.wfFS e.2 = true
  | [] => by
      intro h e he
      cases he
  | (n, t) :: rest => by
      intro h e he
      rw [Merger.wfList] at h
      simp only [Bool.and_eq_true] at h
      rcases List.mem_cons.mp he with h' | h'
      · rw [h']
        exact h.1
      · exact Merger.wfList_mem rest h.2 e h'

/-- Counterexample to C4 as stated: with a section `S` containing the file
`ab.html` and a subdirectory `a` holding `b.html`, the walk lists
`S/ab.html` before `S/a/b.html`, but `"S/a/b.html" < "S/ab.html"`
lexicographically (`/` sorts before `b`), so the returned list is not
sorted by full file path. -/
theorem C4_counterexample :
    (Merger.collect_sections
        [("S", Merger.FS.dir [("a", .dir [("b.html", .file)]), ("ab.html", .file)])]).map
        (fun sec => sec.2.map (fun e => Merger.joinPath ("S" :: e.2))) =
      [["S/ab.html", "S/a/b.html"]] ∧
      PyStr.lexLt "S/a/b.html".data "S/ab.html".data = true ∧
      ¬ List.Pairwise (fun a b => PyStr.pyLe a b = true) ["S/ab.html", "S/a/b.html"] :=
  ⟨by decide, by decide, by decide⟩

/-- C4 (amended): for a well-formed export tree (sibling names distinct, as
on a real filesystem), every section returned by `collect_sections` is an
immediate subdirectory of the root, and its page list is exactly the
`.html` files found by a full recursive walk beneath it (a permutation of
the specification listing), ordered so that no page whose directory lies
strictly below another page's directory precedes that other page — the
files of a directory come before those of its subdirectories.  The list is
not in general sorted lexicographically by full path (see the
counterexample). -/
theorem C4_collect_sections (root : List (String × Merger.FS))
    (hwf : Merger.wfList root = true) :
    ∀ sec ∈ Merger.collect_sections root,
      ∃ sub, (sec.1, Merger.FS.dir sub) ∈ root ∧
        sec.2 = Merger.walkFS (.dir sub) ∧
        sec.2.Perm (Merger.htmlSpecFS (.dir sub)) ∧
        List.Pairwise (fun a b => ¬ Merger.StrictAnc (Merger.dirOf b.2) (Merger.dirOf a.2))
          sec.2 := by
  intro sec hsec
  rw [Merger.collect_sections] at hsec
  rcases List.mem_filterMap.mp hsec with ⟨e, he, hfe⟩
  have heroot : e ∈ root := (List.perm_insertionSort _ root).mem_iff.mp he
  rcases e with ⟨nm, tt⟩
  cases tt with
  | file => cases hfe
  | dir sub =>
      simp only at hfe
      split at hfe
      · cases hfe
      · cases hfe
        have hwsub : Merger.wfFS (.dir sub) = true :=
          Merger.wfList_mem root hwf (nm, .dir sub) heroot
        exact ⟨sub, heroot, rfl, Merger.walkFS_perm (.dir sub),
          Merger.walkFS_pairwise (.dir sub) hwsub⟩

/-- Witness for C4: a root with one section `S` holding `c.html` and a
subdirectory `a` with `b.html`. -/
theorem C4_collect_sections_witness :
    Merger.wfList [("S", Merger.FS.dir [("a", .dir [("b.html", .file)]), ("c.html", .file)])] =
        true ∧
      ∀ sec ∈ Merger.collect_sections
          [("S", Merger.FS.dir [("a", .dir [("b.html", .file)]), ("c.html", .file)])],
        ∃ sub, (sec.1, Merger.FS.dir sub) ∈
            [("S", Merger.FS.dir [("a", .dir [("b.html", .file)]), ("c.html", .file)])] ∧
          sec.2 = Merger.walkFS (.dir sub) ∧
          sec.2.Perm (Merger.htmlSpecFS (.dir sub)) ∧
          List.Pairwise (fun a b => ¬ Merger.StrictAnc (Merger.dirOf b.2) (Merger.dirOf a.2))
            sec.2 :=
  ⟨by decide,
    C4_collect_sections
      [("S", Merger.FS.dir [("a", .dir [("b.html", .file)]), ("c.html", .file)])] (by decide)⟩

end Claims
